import Mathlib

/-!
# The simplex tree node of RIVET (`math/st_node.cpp`)

A shallow embedding of `STNode` over an explicit heap.  Nodes live in heap
cells, a pointer `STNode*` is the address of a cell and `NULL` is `none`.
Node identity is equality of addresses.  Operations that dereference a
pointer or index a vector return in `Except Fault`.

The index arithmetic of `add_child` (`min`, `max`, `mid`, `found`) is of type
`int` in the source: `search32`, which `add_child` runs, reduces the result of
every `int` operation to 32 bits.  `searchExact` is the same search computed in
the integers; it is the reference with which the 32-bit search is compared,
and the two agree for collections of at most `2^30` children.  The values of
the unsigned accessors are reduced modulo `2^32`.  The recursive destructor is
modelled by the list of addresses it frees.
-/

namespace STNodeModel

deriving instance DecidableEq for Except

/-- An address of a heap cell, the model of a non-null `STNode*`. -/
abbrev Ptr := Nat

/-- Conversion of an integer value to the 32-bit `unsigned` type. -/
def toUnsigned (i : Int) : Int := i % 4294967296

/-- Conversion of an integer value to the 32-bit `int` type. -/
def toInt (i : Int) : Int := (i + 2147483648) % 4294967296 - 2147483648

/-- The values of the 32-bit `int` type. -/
def IsInt (i : Int) : Prop := -2147483648 ≤ i ∧ i < 2147483648

instance (i : Int) : Decidable (IsInt i) := by unfold IsInt; infer_instance

/-- Modelled from the spec: the class declaration of `STNode` (header
`st_node.h`, which declares the data members) is not part of the sources.
The members are the ones the constructors of `st_node.cpp` initialise, in
that order, plus the `children` vector; following the data model of the spec
the two grade members hold an integer with sentinel `-1`, and are read
through accessors whose return type in `st_node.cpp` is `unsigned`. -/
structure STNode where
  vertex : Int
  parent : Option Ptr
  mg_x : Int
  mg_y : Int
  d_index : Int
  g_index : Int
  children : List Ptr
  deriving DecidableEq, Repr

/-- The heap: cell `p` holds the node at address `p`; `new` takes the next
free address. -/
abbrev Heap := List STNode

/-- The ways an operation can leave defined behaviour. -/
inductive Fault where
  | nullDeref
  | danglingPointer
  | outOfRange
  | fuel
  deriving DecidableEq, Repr

namespace STNode

/-- The constructor for the empty (root) node, `STNode::STNode()`. -/
def root : STNode :=
  { vertex := -1, parent := none, mg_x := -1, mg_y := -1,
    d_index := -1, g_index := -1, children := [] }

/-- The constructor for a non-empty node,
`STNode::STNode(int v, STNode* p, int x, int y, int g)`. -/
def node (v : Int) (p : Option Ptr) (x y g : Int) : STNode :=
  { vertex := v, parent := p, mg_x := x, mg_y := y,
    d_index := -1, g_index := g, children := [] }

/-- The accessor `int STNode::get_vertex()`. -/
def get_vertex (n : STNode) : Int := n.vertex

/-- The mutator `void STNode::set_x(unsigned x)`. -/
def set_x (n : STNode) (x : Int) : STNode := { n with mg_x := toInt x }

/-- The accessor `unsigned STNode::grade_x() const`. -/
def grade_x (n : STNode) : Int := toUnsigned n.mg_x

/-- The mutator `void STNode::set_y(unsigned y)`. -/
def set_y (n : STNode) (y : Int) : STNode := { n with mg_y := toInt y }

/-- The accessor `unsigned STNode::grade_y() const`. -/
def grade_y (n : STNode) : Int := toUnsigned n.mg_y

/-- The mutator `void STNode::set_global_index(int i)`. -/
def set_global_index (n : STNode) (i : Int) : STNode := { n with g_index := i }

/-- The accessor `int STNode::global_index()`. -/
def global_index (n : STNode) : Int := n.g_index

/-- The mutator `void STNode::set_dim_index(int i)`. -/
def set_dim_index (n : STNode) (i : Int) : STNode := { n with d_index := i }

/-- The accessor `int STNode::dim_index()`. -/
def dim_index (n : STNode) : Int := n.d_index

/-- The accessor `std::vector<STNode*>& STNode::get_children()`. -/
def get_children (n : STNode) : List Ptr := n.children

end STNode

/-- Placing a constructed node in a fresh cell (`new STNode(...)`, or a node
object coming into existence): the heap grows by one cell, whose address is
returned. -/
def alloc (h : Heap) (n : STNode) : Heap × Ptr := (h ++ [n], h.length)

/-- Dereferencing a pointer. -/
def deref (h : Heap) (p : Ptr) : Except Fault STNode :=
  match h[p]? with
  | some n => .ok n
  | none => .error .danglingPointer

/-- The operation `void STNode::append_child(STNode* child)`:
`children.push_back(child)`. -/
def append_child (h : Heap) (this : Ptr) (child : Ptr) : Except Fault Heap :=
  match h[this]? with
  | none => .error .danglingPointer
  | some n => .ok (h.set this { n with children := n.children ++ [child] })

/-- The local variables `min`, `max`, `found` of `add_child`. -/
structure SearchState where
  min : Int
  max : Int
  found : Int
  deriving DecidableEq, Repr

/-- The element access `children[i]` at an index of type `int`. -/
def childAt (cs : List Ptr) (i : Int) : Except Fault Ptr :=
  if 0 ≤ i then
    match cs[i.toNat]? with
    | none => .error .outOfRange
    | some c => .ok c
  else .error .outOfRange

/-- The read `(*children[mid]).get_vertex()`. -/
def childVertex (h : Heap) (cs : List Ptr) (mid : Int) : Except Fault Int :=
  match childAt cs mid with
  | .error e => .error e
  | .ok c =>
    match h[c]? with
    | none => .error .danglingPointer
    | some n => .ok n.get_vertex

/-- Conversion of an integer value to the 64-bit `size_t` type. -/
def toSize (i : Int) : Int := i % 18446744073709551616

/-- One pass through the body of the `while` loop of `add_child`, entered with
`max >= min`: the state it leaves and whether it left the loop by `break`.
The variables are of type `int`: the result of every `int` operation is
reduced to 32 bits. -/
def searchBody32 (h : Heap) (cs : List Ptr) (v : Int) (s : SearchState) :
    Except Fault (SearchState × Bool) :=
  let mid := Int.tdiv (toInt (s.min + s.max)) 2
  match childVertex h cs mid with
  | .error e => .error e
  | .ok w =>
    if w = v then .ok ({ s with found := mid }, true)
    else if w < v then .ok ({ s with min := toInt (mid + 1) }, false)
    else .ok ({ s with max := toInt (mid - 1) }, false)

/-- The `while (max >= min)` loop of `add_child`, run for at most `fuel`
iterations; the result is the state in which the loop is left, and
`Fault.fuel` when the loop has not left after `fuel` iterations. -/
def searchLoop32 (h : Heap) (cs : List Ptr) (v : Int) : Nat → SearchState → Except Fault SearchState
  | 0, s => if s.max ≥ s.min then .error .fuel else .ok s
  | fuel + 1, s =>
    if s.max ≥ s.min then
      match searchBody32 h cs v s with
      | .error e => .error e
      | .ok (s', true) => .ok s'
      | .ok (s', false) => searchLoop32 h cs v fuel s'
    else .ok s

/-- The binary search of `add_child` from its initial state: `min = 0`, `max`
the `size_t` value `children.size() - 1` converted to `int`, `found = -1`;
with one unit of fuel for each child. -/
def search32 (h : Heap) (cs : List Ptr) (v : Int) : Except Fault SearchState :=
  searchLoop32 h cs v cs.length
    { min := 0, max := toInt (toSize ((cs.length : Int) - 1)), found := -1 }

/-- The insertion `children.insert(children.begin() + pos, newnode)`. -/
def insertAt (cs : List Ptr) (pos : Int) (newnode : Ptr) : Except Fault (List Ptr) :=
  if 0 ≤ pos ∧ pos ≤ (cs.length : Int) then
    .ok (cs.take pos.toNat ++ newnode :: cs.drop pos.toNat)
  else .error .outOfRange

/-- The operation `STNode* STNode::add_child(int v, int x, int y)`: the new
heap and the returned pointer. -/
def add_child (h : Heap) (this : Ptr) (v x y : Int) : Except Fault (Heap × Ptr) :=
  match h[this]? with
  | none => .error .danglingPointer
  | some n =>
    match search32 h n.children v with
    | .error e => .error e
    | .ok s =>
      if s.found ≠ -1 then
        match childAt n.children s.found with
        | .error e => .error e
        | .ok c => .ok (h, c)
      else
        let (h1, newnode) := alloc h (STNode.node v (some this) x y (-1))
        match insertAt n.children (s.max + 1) newnode with
        | .error e => .error e
        | .ok cs => .ok (h1.set this { n with children := cs }, newnode)

/-- The vertex of the node at address `p` (`0` for an address outside the heap). -/
def vertexOf (h : Heap) (p : Ptr) : Int :=
  match h[p]? with
  | some n => n.get_vertex
  | none => 0

/-- The vertex ids of a children collection, in order. -/
def vertices (h : Heap) (cs : List Ptr) : List Int := cs.map (vertexOf h)

/-- The vertex ids of the children of the node at `p`. -/
def childVertices (h : Heap) (p : Ptr) : List Int :=
  match h[p]? with
  | some n => vertices h n.children
  | none => []

/-- The ordering invariant of a children collection: every child is a node of
the heap and the vertex ids are strictly ascending. -/
def Ascending (h : Heap) (cs : List Ptr) : Prop :=
  (∀ c ∈ cs, c < h.length) ∧ (vertices h cs).Pairwise (· < ·)

instance (h : Heap) (cs : List Ptr) : Decidable (Ascending h cs) := by
  unfold Ascending; infer_instance

/-- The root of `sampleHeap`. -/
def sampleRoot : STNode := { STNode.root with children := [2, 1, 3] }

/-- The heap of the example of the specification: a root at address `0` after
`add_child(3,0,0)`, `add_child(1,0,0)`, `add_child(5,0,0)`. -/
def sampleHeap : Heap :=
  [sampleRoot, STNode.node 3 (some 0) 0 0 (-1), STNode.node 1 (some 0) 0 0 (-1),
    STNode.node 5 (some 0) 0 0 (-1)]

/-- The values of the 32-bit `unsigned` type. -/
def IsUnsigned (i : Int) : Prop := 0 ≤ i ∧ i < 4294967296

instance (i : Int) : Decidable (IsUnsigned i) := by unfold IsUnsigned; infer_instance

/-- A call `p->m(...)` of a mutator `m` on the node at address `this`: the
cell of `this` holds the node as the mutator leaves it. -/
def callSet (h : Heap) (this : Ptr) (m : STNode → STNode) : Except Fault Heap :=
  match h[this]? with
  | none => .error .danglingPointer
  | some n => .ok (h.set this (m n))

/-- A call `p->m()` of an accessor `m` on the node at address `this`: the heap
after the call and the value returned. -/
def callGet (h : Heap) (this : Ptr) (m : STNode → Int) : Except Fault (Heap × Int) :=
  match h[this]? with
  | none => .error .danglingPointer
  | some n => .ok (h, m n)

/-- The heap in which a fresh root has been given, by `append_child`, a child
with vertex `5` and then a child with vertex `1`, against the precondition of
`append_child`. -/
def unsortedHeap : Except Fault Heap :=
  let (h0, root) := alloc [] STNode.root
  let (h1, a) := alloc h0 (STNode.node 5 (some root) 0 0 (-1))
  let (h2, b) := alloc h1 (STNode.node 1 (some root) 0 0 (-1))
  match append_child h2 root a with
  | .error e => .error e
  | .ok h3 => append_child h3 root b

/-- Reference for the comparison with `searchBody32`: one pass through the
body of the loop computed in the integers.  It is not the arithmetic of the
code. -/
def searchBodyExact (h : Heap) (cs : List Ptr) (v : Int) (s : SearchState) :
    Except Fault (SearchState × Bool) :=
  let mid := Int.tdiv (s.min + s.max) 2
  match childVertex h cs mid with
  | .error e => .error e
  | .ok w =>
    if w = v then .ok ({ s with found := mid }, true)
    else if w < v then .ok ({ s with min := mid + 1 }, false)
    else .ok ({ s with max := mid - 1 }, false)

/-- Reference for the comparison with `searchLoop32`: the `while (max >= min)`
loop computed in the integers, where no operation overflows.  It is not the
arithmetic of the code. -/
def searchLoopExact (h : Heap) (cs : List Ptr) (v : Int) : Nat → SearchState → Except Fault SearchState
  | 0, s => if s.max ≥ s.min then .error .fuel else .ok s
  | fuel + 1, s =>
    if s.max ≥ s.min then
      let mid := Int.tdiv (s.min + s.max) 2
      match childVertex h cs mid with
      | .error e => .error e
      | .ok w =>
        if w = v then .ok { s with found := mid }
        else if w < v then searchLoopExact h cs v fuel { s with min := mid + 1 }
        else searchLoopExact h cs v fuel { s with max := mid - 1 }
    else .ok s

/-- Reference for the comparison with `search32`: the binary search computed
in the integers from `min = 0`, `max = size - 1`, `found = -1`.  It is not the
arithmetic of the code. -/
def searchExact (h : Heap) (cs : List Ptr) (v : Int) : Except Fault SearchState :=
  searchLoopExact h cs v cs.length { min := 0, max := (cs.length : Int) - 1, found := -1 }

/-- Reference for the comparison with `LoopState32`: the states in which the
loop condition is evaluated when the loop is computed in the integers. -/
inductive LoopStateExact (h : Heap) (cs : List Ptr) (v : Int) : SearchState → Prop where
  | init : LoopStateExact h cs v { min := 0, max := (cs.length : Int) - 1, found := -1 }
  | next {s s' : SearchState} : LoopStateExact h cs v s → s.max ≥ s.min →
      searchBodyExact h cs v s = .ok (s', false) → LoopStateExact h cs v s'

/-- A sequence of `add_child` calls, each given by the address of the node it
is called on and its arguments `(v, x, y)`. -/
def build (h : Heap) : List (Ptr × Int × Int × Int) → Except Fault Heap
  | [] => .ok h
  | (t, v, x, y) :: rest =>
    match add_child h t v x y with
    | .error e => .error e
    | .ok (h1, _) => build h1 rest

/-- The structural invariant of a tree with root at address `root`: the root
has vertex `-1` and no parent, every node in the children collection of a node
`a` is a node of the heap whose parent is `a`, and the root is the only node
without a parent. -/
def TreeInv (h : Heap) (root : Ptr) : Prop :=
  (∃ n0, h[root]? = some n0 ∧ n0.vertex = -1 ∧ n0.parent = none) ∧
  (∀ (a : Ptr) (n : STNode), h[a]? = some n →
    ∀ c ∈ n.children, ∃ nc : STNode, h[c]? = some nc ∧ nc.parent = some a) ∧
  (∀ (a : Ptr) (n : STNode), h[a]? = some n → n.parent = none → a = root)

/-- The loop of the destructor `STNode::~STNode()` over the children: each
child is deleted in turn by `del`, and the addresses freed are collected in
order. -/
def deleteEach (del : Ptr → Except Fault (List Ptr)) : List Ptr → Except Fault (List Ptr)
  | [] => .ok []
  | c :: cs =>
    match del c with
    | .error e => .error e
    | .ok l =>
      match deleteEach del cs with
      | .error e => .error e
      | .ok r => .ok (l ++ r)

/-- The teardown `delete p`: the destructor of the node at `p` deletes every
child, then the storage of `p` is freed.  The result is the list of the
addresses freed, in the order in which they are freed; `fuel` bounds the depth
of the recursion. -/
def deleteNode (h : Heap) : Nat → Ptr → Except Fault (List Ptr)
  | 0, _ => .error .fuel
  | fuel + 1, p =>
    match h[p]? with
    | none => .error .danglingPointer
    | some n =>
      match deleteEach (fun c => deleteNode h fuel c) n.children with
      | .error e => .error e
      | .ok l => .ok (l ++ [p])

/-- The node at `c` is in the children collection of the node at `a`. -/
def Child (h : Heap) (a c : Ptr) : Prop := ∃ n, h[a]? = some n ∧ c ∈ n.children

/-- The node at `q` belongs to the subtree of the node at `p`: it is reached
from `p` through children collections. -/
def InSubtree (h : Heap) (p q : Ptr) : Prop := Relation.ReflTransGen (Child h) p q

/-- A heap with a tree of depth two: the root has children with vertices `1`
and `4`, and the child with vertex `1` has a child with vertex `2`. -/
def deepHeap : Heap :=
  [{ STNode.root with children := [1, 2] },
    { STNode.node 1 (some 0) 0 0 (-1) with children := [3] },
    STNode.node 4 (some 0) 0 0 (-1), STNode.node 2 (some 1) 0 0 (-1)]

/-- The height of the nodes of `deepHeap`. -/
def deepHeight (p : Ptr) : Nat := if p = 0 then 2 else if p = 1 then 1 else 0

/-- The destructor `STNode::~STNode()` run on a node object: it deletes every
child.  The result is the list of the addresses freed, in order. -/
def destructor (h : Heap) (fuel : Nat) (n : STNode) : Except Fault (List Ptr) :=
  deleteEach (fun c => deleteNode h fuel c) n.children

/-- The accessor `STNode STNode::get_parent()`: it returns `*parent` by value,
a memberwise copy of the parent that holds the parent's child pointers.  The
copy is an `STNode` object, so its destructor runs when it dies: the result is
the copy together with the addresses that its destruction frees. -/
def get_parent (h : Heap) (fuel : Nat) (this : Ptr) : Except Fault (STNode × List Ptr) :=
  match h[this]? with
  | none => .error .danglingPointer
  | some n =>
    match n.parent with
    | none => .error .nullDeref
    | some p =>
      match deref h p with
      | .error e => .error e
      | .ok copy =>
        match destructor h fuel copy with
        | .error e => .error e
        | .ok freed => .ok (copy, freed)

/-- The root of `ascendingHeap size`. -/
def ascendingRoot (size : Nat) : STNode := { STNode.root with children := List.range' 1 size }

/-- A heap holding a root at address `0` with `size` children: the child at
index `i` is the node at address `i + 1`, with vertex `i + 1`. -/
def ascendingHeap (size : Nat) : Heap :=
  ascendingRoot size ::
    (List.range' 1 size).map (fun (i : Nat) => STNode.node (i : Int) (some 0) 0 0 (-1))

theorem searchLoop_succ (h : Heap) (cs : List Ptr) (v : Int) (fuel : Nat) (s : SearchState) :
    searchLoopExact h cs v (fuel + 1) s =
      if s.max ≥ s.min then
        match searchBodyExact h cs v s with
        | .error e => .error e
        | .ok (s', true) => .ok s'
        | .ok (s', false) => searchLoopExact h cs v fuel s'
      else .ok s := by
  by_cases hc : s.max ≥ s.min
  · simp only [searchLoopExact, searchBodyExact, hc, if_true]
    cases childVertex h cs (Int.tdiv (s.min + s.max) 2) with
    | error e => rfl
    | ok w =>
      by_cases hwv : w = v
      · simp only [hwv, if_true]
      · by_cases hlt : w < v
        · simp only [hwv, hlt, if_true, if_false]
        · simp only [hwv, hlt, if_false]
  · simp only [searchLoopExact, hc, if_false]

theorem childAt_ok {cs : List Ptr} {i : Int} (h0 : 0 ≤ i) (h1 : i < cs.length) :
    ∃ c, childAt cs i = .ok c ∧ cs[i.toNat]? = some c := by
  have hlt : i.toNat < cs.length := by omega
  exact ⟨cs[i.toNat], by simp [childAt, h0, List.getElem?_eq_getElem hlt],
    List.getElem?_eq_getElem hlt⟩

theorem childVertex_cases (h : Heap) {cs : List Ptr} {mid : Int} (h0 : 0 ≤ mid)
    (h1 : mid < cs.length) :
    (childVertex h cs mid = .error .danglingPointer ∧ ∃ c ∈ cs, h.length ≤ c) ∨
      ∃ w, childVertex h cs mid = .ok w := by
  obtain ⟨c, hc, hcm⟩ := childAt_ok h0 h1
  cases hn : h[c]? with
  | none =>
    left
    exact ⟨by simp only [childVertex, hc, hn], c, List.mem_iff_getElem?.mpr ⟨_, hcm⟩,
      List.getElem?_eq_none_iff.mp hn⟩
  | some n =>
    right
    exact ⟨n.get_vertex, by simp only [childVertex, hc, hn]⟩

/-- The bounds kept by the loop of `add_child`. -/
theorem searchBody_spec (h : Heap) (cs : List Ptr) (v : Int) (s : SearchState)
    (h0 : 0 ≤ s.min) (h1 : s.max ≤ (cs.length : Int) - 1) (hc : s.max ≥ s.min) :
    Int.tdiv (s.min + s.max) 2 = (s.min + s.max) / 2 ∧
    ((searchBodyExact h cs v s = .error .danglingPointer ∧ ∃ c ∈ cs, h.length ≤ c) ∨
      searchBodyExact h cs v s = .ok ({ s with found := (s.min + s.max) / 2 }, true) ∨
      searchBodyExact h cs v s = .ok ({ s with min := (s.min + s.max) / 2 + 1 }, false) ∨
      searchBodyExact h cs v s = .ok ({ s with max := (s.min + s.max) / 2 - 1 }, false)) := by
  have hsum : (0 : Int) ≤ s.min + s.max := by omega
  have hdiv : Int.tdiv (s.min + s.max) 2 = (s.min + s.max) / 2 :=
    Int.tdiv_eq_ediv hsum (by decide)
  refine ⟨hdiv, ?_⟩
  have hm0 : 0 ≤ (s.min + s.max) / 2 := by omega
  have hm1 : (s.min + s.max) / 2 < cs.length := by omega
  unfold searchBodyExact
  simp only [hdiv]
  rcases childVertex_cases h hm0 hm1 with ⟨he, hd⟩ | ⟨w, hw⟩
  · left
    rw [he]
    exact ⟨rfl, hd⟩
  · right
    rw [hw]
    by_cases hwv : w = v
    · simp only [hwv, if_true, true_or]
    · by_cases hlt : w < v
      · simp only [hwv, hlt, if_true, if_false, true_or, or_true]
      · simp only [hwv, hlt, if_false, or_true]

theorem loopState_bounds {h : Heap} {cs : List Ptr} {v : Int} {s : SearchState}
    (hs : LoopStateExact h cs v s) :
    0 ≤ s.min ∧ s.max ≤ (cs.length : Int) - 1 ∧ s.min ≤ s.max + 1 ∧ s.found = -1 := by
  induction hs with
  | init => simp
  | next hprev hc hbody ih =>
    rename_i s s'
    obtain ⟨h0, h1, h2, h3⟩ := ih
    obtain ⟨_, hcases⟩ := searchBody_spec h cs v s h0 h1 hc
    rw [hbody] at hcases
    rcases hcases with ⟨he, _⟩ | he | he | he
    · cases he
    · cases he
    · cases he
      refine ⟨?_, h1, ?_, h3⟩ <;> simp only <;> omega
    · cases he
      refine ⟨h0, ?_, ?_, h3⟩ <;> simp only <;> omega

/-- The loop of `add_child` on an arbitrary collection, given fuel for the
width of the interval: it is left normally, with `max + 1` a position of the
collection and `found` unchanged or an index of the collection, unless a child
pointer read is dangling. -/
theorem searchLoop_general (h : Heap) (cs : List Ptr) (v : Int) :
    ∀ (fuel : Nat) (s : SearchState), 0 ≤ s.min → s.max ≤ (cs.length : Int) - 1 →
      s.min ≤ s.max + 1 → s.max - s.min + 1 ≤ fuel →
      (searchLoopExact h cs v fuel s = .error .danglingPointer ∧ ∃ c ∈ cs, h.length ≤ c) ∨
      ∃ s', searchLoopExact h cs v fuel s = .ok s' ∧ 0 ≤ s'.max + 1 ∧ s'.max + 1 ≤ cs.length ∧
        ((s'.found = s.found ∧ s'.max < s'.min) ∨ (0 ≤ s'.found ∧ s'.found < cs.length)) := by
  intro fuel
  induction fuel with
  | zero =>
    intro s h0 h1 h2 h3
    have hlt : ¬ s.max ≥ s.min := by omega
    right
    exact ⟨s, by simp only [searchLoopExact, hlt, if_false], by omega, by omega,
      Or.inl ⟨rfl, by omega⟩⟩
  | succ fuel ih =>
    intro s h0 h1 h2 h3
    rw [searchLoop_succ]
    by_cases hc : s.max ≥ s.min
    · simp only [hc, if_true]
      obtain ⟨_, hcases⟩ := searchBody_spec h cs v s h0 h1 hc
      rcases hcases with ⟨he, hd⟩ | he | he | he
      · left
        rw [he]
        exact ⟨rfl, hd⟩
      · right
        rw [he]
        exact ⟨_, rfl, by simp only; omega, by simp only; omega,
          Or.inr ⟨by simp only; omega, by simp only; omega⟩⟩
      · rw [he]
        exact ih _ (by simp only; omega) h1 (by simp only; omega) (by simp only; omega)
      · rw [he]
        exact ih _ h0 (by simp only; omega) (by simp only; omega) (by simp only; omega)
    · simp only [hc, if_false]
      right
      exact ⟨s, rfl, by omega, by omega, Or.inl ⟨rfl, by omega⟩⟩

/-- The search of `add_child` on an arbitrary collection. -/
theorem search_general (h : Heap) (cs : List Ptr) (v : Int) :
    (searchExact h cs v = .error .danglingPointer ∧ ∃ c ∈ cs, h.length ≤ c) ∨
    ∃ s, searchExact h cs v = .ok s ∧ 0 ≤ s.max + 1 ∧ s.max + 1 ≤ cs.length ∧
      (s.found = -1 ∨ (0 ≤ s.found ∧ s.found < cs.length)) := by
  rcases searchLoop_general h cs v cs.length
      { min := 0, max := (cs.length : Int) - 1, found := -1 }
      (by simp) (by simp) (by simp) (by simp) with he | ⟨s, hs, h0, h1, hf⟩
  · exact Or.inl he
  · right
    refine ⟨s, hs, h0, h1, ?_⟩
    rcases hf with ⟨hf, _⟩ | hf
    · exact Or.inl hf
    · exact Or.inr hf

/-! ## The search in 32-bit arithmetic -/

theorem searchBody32_eq (h : Heap) (cs : List Ptr) (v : Int) (s : SearchState)
    (hsize : cs.length ≤ 1073741824) (h0 : 0 ≤ s.min) (h1 : s.max ≤ (cs.length : Int) - 1)
    (hc : s.max ≥ s.min) :
    toInt (s.min + s.max) = s.min + s.max ∧
    Int.tdiv (toInt (s.min + s.max)) 2 = (s.min + s.max) / 2 ∧
    toInt ((s.min + s.max) / 2 + 1) = (s.min + s.max) / 2 + 1 ∧
    toInt ((s.min + s.max) / 2 - 1) = (s.min + s.max) / 2 - 1 ∧
    searchBody32 h cs v s = searchBodyExact h cs v s := by
  have e1 : toInt (s.min + s.max) = s.min + s.max := by unfold toInt; omega
  have e2 : Int.tdiv (s.min + s.max) 2 = (s.min + s.max) / 2 :=
    Int.tdiv_eq_ediv (by omega) (by decide)
  have e3 : toInt ((s.min + s.max) / 2 + 1) = (s.min + s.max) / 2 + 1 := by
    unfold toInt; omega
  have e4 : toInt ((s.min + s.max) / 2 - 1) = (s.min + s.max) / 2 - 1 := by
    unfold toInt; omega
  refine ⟨e1, by rw [e1, e2], e3, e4, ?_⟩
  simp only [searchBody32, searchBodyExact, e1, e2, e3, e4]

theorem searchLoop32_eq (h : Heap) (cs : List Ptr) (v : Int) (hsize : cs.length ≤ 1073741824) :
    ∀ (fuel : Nat) (s : SearchState), 0 ≤ s.min → s.max ≤ (cs.length : Int) - 1 →
      searchLoop32 h cs v fuel s = searchLoopExact h cs v fuel s := by
  intro fuel
  induction fuel with
  | zero =>
    intro s _ _
    rfl
  | succ fuel ih =>
    intro s h0 h1
    rw [searchLoop_succ]
    by_cases hc : s.max ≥ s.min
    · simp only [searchLoop32, hc, if_true]
      rw [(searchBody32_eq h cs v s hsize h0 h1 hc).2.2.2.2]
      obtain ⟨_, hcases⟩ := searchBody_spec h cs v s h0 h1 hc
      rcases hcases with ⟨he, _⟩ | he | he | he
      · rw [he]
      · rw [he]
      · rw [he]
        exact ih { s with min := (s.min + s.max) / 2 + 1 } (by simp only; omega) h1
      · rw [he]
        exact ih { s with max := (s.min + s.max) / 2 - 1 } h0 (by simp only; omega)
    · simp only [searchLoop32, hc, if_false]


theorem toInt_toSize_pred {len : Nat} (hsize : len ≤ 2147483648) :
    toInt (toSize ((len : Int) - 1)) = (len : Int) - 1 := by
  unfold toInt toSize
  omega

theorem search32_eq (h : Heap) (cs : List Ptr) (v : Int) (hsize : cs.length ≤ 1073741824) :
    search32 h cs v = searchExact h cs v := by
  unfold search32 searchExact
  rw [toInt_toSize_pred (by omega)]
  exact searchLoop32_eq h cs v hsize cs.length _ (by simp) (by simp)

/-- The search of `add_child` on an arbitrary collection of at most `2^30`
children. -/
theorem search32_general (h : Heap) (cs : List Ptr) (v : Int) (hsize : cs.length ≤ 1073741824) :
    (search32 h cs v = .error .danglingPointer ∧ ∃ c ∈ cs, h.length ≤ c) ∨
    ∃ s, search32 h cs v = .ok s ∧ 0 ≤ s.max + 1 ∧ s.max + 1 ≤ cs.length ∧
      (s.found = -1 ∨ (0 ≤ s.found ∧ s.found < cs.length)) := by
  rw [search32_eq h cs v hsize]
  exact search_general h cs v

/-! ## A call of `add_child` on an ascending collection -/

theorem lookup_this {h : Heap} {this : Ptr} (nd n' : STNode) (ht : this < h.length) :
    ((h ++ [nd]).set this n')[this]? = some n' := by
  have hlt : this < (h ++ [nd]).length := by
    rw [List.length_append]
    exact Nat.lt_add_right 1 ht
  exact List.getElem?_set_self hlt

theorem lookup_new {h : Heap} {this : Ptr} (nd n' : STNode) (ht : this < h.length) :
    ((h ++ [nd]).set this n')[h.length]? = some nd := by
  rw [List.getElem?_set_ne (Nat.ne_of_lt ht), List.getElem?_append_right (le_refl _)]
  simp

theorem lookup_old {h : Heap} {this c : Ptr} (nd n' : STNode) (hc : c < h.length)
    (hne : c ≠ this) : ((h ++ [nd]).set this n')[c]? = h[c]? := by
  rw [List.getElem?_set_ne (Ne.symm hne), List.getElem?_append_left hc]

theorem childAt_mem {cs : List Ptr} {i : Int} {c : Ptr} (hc : childAt cs i = .ok c) :
    c ∈ cs ∧ 0 ≤ i ∧ i < cs.length ∧ cs[i.toNat]? = some c := by
  unfold childAt at hc
  by_cases h0 : 0 ≤ i
  · simp only [h0, if_true] at hc
    cases hg : cs[i.toNat]? with
    | none =>
      rw [hg] at hc
      cases hc
    | some d =>
      rw [hg] at hc
      cases hc
      have hlt := (List.getElem?_eq_some.mp hg).1
      exact ⟨List.mem_iff_getElem?.mpr ⟨_, hg⟩, h0, by omega, rfl⟩
  · simp only [h0, if_false] at hc
    cases hc

/-- The shape of every call of `add_child` that returns, whatever the size of
the collection: it returns an old child in an unchanged heap, or a node at a
fresh address inserted at some position. -/
theorem add_child_shape {h : Heap} {this : Ptr} {n : STNode} (v x y : Int)
    (hn : h[this]? = some n) {h' : Heap} {r : Ptr}
    (hadd : add_child h this v x y = .ok (h', r)) :
    (h' = h ∧ r ∈ n.children) ∨
    (∃ k, k ≤ n.children.length ∧ r = h.length ∧
      h' = (h ++ [STNode.node v (some this) x y (-1)]).set this
        { n with children := n.children.take k ++ h.length :: n.children.drop k }) := by
  simp only [add_child, hn] at hadd
  cases hs : search32 h n.children v with
  | error e =>
    rw [hs] at hadd
    cases hadd
  | ok s =>
    rw [hs] at hadd
    by_cases hf : s.found = -1
    · right
      simp only [hf, ne_eq, not_true_eq_false, if_false, alloc, insertAt] at hadd
      by_cases hr : 0 ≤ s.max + 1 ∧ s.max + 1 ≤ (n.children.length : Int)
      · simp only [hr, and_self, if_true] at hadd
        cases hadd
        exact ⟨(s.max + 1).toNat, by omega, rfl, rfl⟩
      · simp only [hr, if_false] at hadd
        cases hadd
    · left
      simp only [hf, ne_eq, not_false_eq_true, if_true] at hadd
      cases hc : childAt n.children s.found with
      | error e =>
        rw [hc] at hadd
        cases hadd
      | ok c =>
        rw [hc] at hadd
        cases hadd
        exact ⟨rfl, (childAt_mem hc).1⟩

/-- A call of `add_child` on a node of the heap with at most `2^30` children:
unless a child pointer read is dangling, it returns an old child in an
unchanged heap, or a node at a fresh address inserted at some position. -/
theorem add_child_general {h : Heap} {this : Ptr} {n : STNode} (v x y : Int)
    (hn : h[this]? = some n) (hsize : n.children.length ≤ 1073741824) :
    (add_child h this v x y = .error .danglingPointer ∧ ∃ c ∈ n.children, h.length ≤ c) ∨
    (∃ c, add_child h this v x y = .ok (h, c) ∧ c ∈ n.children) ∨
    (∃ k, k ≤ n.children.length ∧
      add_child h this v x y = .ok
        ((h ++ [STNode.node v (some this) x y (-1)]).set this
          { n with children := n.children.take k ++ h.length :: n.children.drop k },
         h.length)) := by
  rcases search32_general h n.children v hsize with ⟨he, hd⟩ | ⟨s, hs, h0, h1, hf⟩
  · left
    exact ⟨by simp only [add_child, hn, he], hd⟩
  · right
    rcases hf with hf | ⟨hf0, hf1⟩
    · right
      refine ⟨(s.max + 1).toNat, by omega, ?_⟩
      have hrange : 0 ≤ s.max + 1 ∧ s.max + 1 ≤ (n.children.length : Int) := ⟨h0, h1⟩
      simp only [add_child, hn, hs, hf, ne_eq, not_true_eq_false, if_false, alloc, insertAt,
        hrange, and_self, if_true]
    · left
      obtain ⟨c, hc, hcm⟩ := childAt_ok hf0 hf1
      have hne : s.found ≠ -1 := by omega
      exact ⟨c, by simp only [add_child, hn, hs, hne, ne_eq, not_false_eq_true, if_true, hc],
        List.mem_iff_getElem?.mpr ⟨_, hcm⟩⟩


/-! ## Collections of more than `2^30` children -/

theorem ascendingHeap_lookup {size c : Nat} (hc : c ∈ (ascendingRoot size).children) :
    (ascendingHeap size)[c]? = some (STNode.node (c : Int) (some 0) 0 0 (-1)) := by
  have hm : 1 ≤ c ∧ c < 1 + size := List.mem_range'_1.mp hc
  obtain ⟨i, rfl⟩ : ∃ i, c = i + 1 := ⟨c - 1, by omega⟩
  unfold ascendingHeap
  rw [List.getElem?_cons_succ, List.getElem?_map, List.getElem?_range' 1 1 (by omega)]
  simp only [Option.map_some']
  congr 2
  push_cast
  omega

theorem vertexOf_ascendingHeap {size c : Nat} (hc : c ∈ (ascendingRoot size).children) :
    vertexOf (ascendingHeap size) c = (c : Int) := by
  simp only [vertexOf, ascendingHeap_lookup hc, STNode.get_vertex, STNode.node]

theorem ascendingHeap_below (size : Nat) :
    ∀ c ∈ (ascendingRoot size).children, vertexOf (ascendingHeap size) c < (size : Int) + 1 := by
  intro c hc
  have hm : c < size + 1 :=
    Nat.lt_of_lt_of_eq (List.mem_range'_1.mp hc).2 (Nat.add_comm 1 size)
  rw [vertexOf_ascendingHeap hc]
  exact_mod_cast hm

theorem ascendingHeap_absent (size : Nat) :
    (size : Int) + 1 ∉ vertices (ascendingHeap size) (ascendingRoot size).children := by
  intro hm
  obtain ⟨c, hc, hcv⟩ := List.mem_map.mp hm
  have := ascendingHeap_below size c hc
  omega

theorem mem_vertices_iff {h : Heap} {cs : List Ptr} {v : Int} :
    v ∈ vertices h cs ↔ ∃ c ∈ cs, vertexOf h c = v := by
  simp only [vertices, List.mem_map]

/-- C7, the claim as stated fails: on a node built by the default constructor
the accessors `grade_x()` and `grade_y()`, whose return type is `unsigned`, do
not return `-1`. -/
theorem root_grades_not_minus_one :
    ¬ (STNode.root.get_vertex = -1 ∧ STNode.root.parent = none ∧
        STNode.root.get_children = [] ∧ STNode.root.grade_x = -1 ∧
        STNode.root.grade_y = -1 ∧ STNode.root.global_index = -1 ∧
        STNode.root.dim_index = -1) := by
  decide

/-- C7 as amended: a node built by the default constructor has
`get_vertex() = -1`, no parent, no children, `global_index()` and
`dim_index()` return `-1`, and `grade_x()` and `grade_y()` return
`4294967295`, the sentinel `-1` converted to 32-bit `unsigned`. -/
theorem root_fields :
    STNode.root.get_vertex = -1 ∧ STNode.root.parent = none ∧
      STNode.root.get_children = [] ∧ STNode.root.grade_x = 4294967295 ∧
      STNode.root.grade_y = 4294967295 ∧ STNode.root.grade_x = toUnsigned (-1) ∧
      STNode.root.grade_y = toUnsigned (-1) ∧ STNode.root.global_index = -1 ∧
      STNode.root.dim_index = -1 := by
  decide

/-- C8: constructing `STNode(v, p, x, y, g)` for a node `p` of the heap leaves
the cell of `p`, so its children collection and every other field, and every
other existing cell unchanged; the constructed node lives at a fresh address
and has vertex `v`, parent `p`, global index `g`, dimension index `-1` and no
children. -/
theorem construct_child_does_not_link (h : Heap) (p : Ptr) (np : STNode) (v x y g : Int)
    (hp : h[p]? = some np) :
    ∃ h' q nq, alloc h (STNode.node v (some p) x y g) = (h', q) ∧
      h'[p]? = some np ∧ (∀ c, c < h.length → h'[c]? = h[c]?) ∧
      q = h.length ∧ q ≠ p ∧ h'[q]? = some nq ∧
      nq.get_vertex = v ∧ nq.parent = some p ∧ nq.global_index = g ∧
      nq.dim_index = -1 ∧ nq.get_children = [] := by
  have hpl : p < h.length := (List.getElem?_eq_some.mp hp).1
  refine ⟨_, _, STNode.node v (some p) x y g, rfl, ?_, ?_, rfl, Nat.ne_of_gt hpl, ?_,
    rfl, rfl, rfl, rfl, rfl⟩
  · rw [List.getElem?_append_left hpl, hp]
  · intro c hc
    exact List.getElem?_append_left hc
  · rw [List.getElem?_append_right (le_refl _)]
    simp

/-- Witness of C8: constructing a node with vertex `7` and parent the root of
the sample heap. -/
theorem construct_child_does_not_link_witness :
    sampleHeap[0]? = some sampleRoot ∧
    ∃ h' q nq, alloc sampleHeap (STNode.node 7 (some 0) 1 2 9) = (h', q) ∧
      h'[0]? = some sampleRoot ∧ (∀ c, c < sampleHeap.length → h'[c]? = sampleHeap[c]?) ∧
      q = sampleHeap.length ∧ q ≠ 0 ∧ h'[q]? = some nq ∧
      nq.get_vertex = 7 ∧ nq.parent = some 0 ∧ nq.global_index = 9 ∧
      nq.dim_index = -1 ∧ nq.get_children = [] :=
  ⟨rfl, construct_child_does_not_link sampleHeap 0 sampleRoot 7 1 2 9 rfl⟩

/-- C9: `n.append_child(child)` always returns normally, whatever the vertex
of `child`; afterwards the children of `n` are the old collection followed by
`child` (one more element), the other fields of `n` are unchanged, no cell is
created, and every cell other than that of `n` is unchanged, so every old
child and `child` itself; the parent reference and the other fields of `child`
are those it had before the call. -/
theorem append_child_frame (h : Heap) (this child : Ptr) (n : STNode)
    (hn : h[this]? = some n) :
    ∃ h' n', append_child h this child = .ok h' ∧ h'.length = h.length ∧
      h'[this]? = some n' ∧
      n'.children = n.children ++ [child] ∧ n'.children.length = n.children.length + 1 ∧
      n'.vertex = n.vertex ∧ n'.parent = n.parent ∧ n'.mg_x = n.mg_x ∧ n'.mg_y = n.mg_y ∧
      n'.d_index = n.d_index ∧ n'.g_index = n.g_index ∧
      (∀ p, p ≠ this → h'[p]? = h[p]?) ∧
      (∀ nc, h[child]? = some nc →
        ∃ nc', h'[child]? = some nc' ∧ nc'.parent = nc.parent ∧ nc'.vertex = nc.vertex ∧
          nc'.mg_x = nc.mg_x ∧ nc'.mg_y = nc.mg_y ∧ nc'.d_index = nc.d_index ∧
          nc'.g_index = nc.g_index ∧ (child ≠ this → nc' = nc)) := by
  have ht : this < h.length := (List.getElem?_eq_some.mp hn).1
  have hself : (h.set this { n with children := n.children ++ [child] })[this]? =
      some { n with children := n.children ++ [child] } := List.getElem?_set_self ht
  refine ⟨h.set this { n with children := n.children ++ [child] },
    { n with children := n.children ++ [child] }, ?_, List.length_set _ _ _, hself, rfl,
    by simp, rfl, rfl, rfl, rfl, rfl, rfl, ?_, ?_⟩
  · simp only [append_child, hn]
  · intro p hp
    exact List.getElem?_set_ne (Ne.symm hp)
  · intro nc hnc
    by_cases hct : child = this
    · subst hct
      rw [hn] at hnc
      cases hnc
      exact ⟨_, hself, rfl, rfl, rfl, rfl, rfl, rfl, fun hne => absurd rfl hne⟩
    · refine ⟨nc, ?_, rfl, rfl, rfl, rfl, rfl, rfl, fun _ => rfl⟩
      rw [List.getElem?_set_ne (Ne.symm hct)]
      exact hnc

/-- Witness of C9: a node with vertex `2` and no parent, constructed in the
sample heap at address `4`, is appended to the root, whose children have
vertices `1, 3, 5`; it becomes the last child and its parent stays unset. -/
theorem append_child_frame_witness :
    ((alloc sampleHeap (STNode.node 2 none 0 0 (-1))).1[0]? = some sampleRoot ∧
    ∃ h' n', append_child (alloc sampleHeap (STNode.node 2 none 0 0 (-1))).1 0 4 = .ok h' ∧
      h'.length = (alloc sampleHeap (STNode.node 2 none 0 0 (-1))).1.length ∧
      h'[0]? = some n' ∧
      n'.children = sampleRoot.children ++ [4] ∧
      n'.children.length = sampleRoot.children.length + 1 ∧
      n'.vertex = sampleRoot.vertex ∧ n'.parent = sampleRoot.parent ∧
      n'.mg_x = sampleRoot.mg_x ∧ n'.mg_y = sampleRoot.mg_y ∧
      n'.d_index = sampleRoot.d_index ∧ n'.g_index = sampleRoot.g_index ∧
      (∀ p, p ≠ 0 → h'[p]? = (alloc sampleHeap (STNode.node 2 none 0 0 (-1))).1[p]?) ∧
      (∀ nc, (alloc sampleHeap (STNode.node 2 none 0 0 (-1))).1[4]? = some nc →
        ∃ nc', h'[4]? = some nc' ∧ nc'.parent = nc.parent ∧ nc'.vertex = nc.vertex ∧
          nc'.mg_x = nc.mg_x ∧ nc'.mg_y = nc.mg_y ∧ nc'.d_index = nc.d_index ∧
          nc'.g_index = nc.g_index ∧ (4 ≠ 0 → nc' = nc))) ∧
    (append_child (alloc sampleHeap (STNode.node 2 none 0 0 (-1))).1 0 4).map
        (fun h' => (childVertices h' 0, (h'[4]?).map STNode.parent)) =
      .ok ([1, 3, 5, 2], some none) :=
  ⟨⟨rfl, append_child_frame (alloc sampleHeap (STNode.node 2 none 0 0 (-1))).1 0 4 sampleRoot
    rfl⟩, by decide⟩

theorem vertexOf_set {h : Heap} {this : Ptr} {n : STNode} (hn : h[this]? = some n)
    (cs : List Ptr) (c : Ptr) :
    vertexOf (h.set this { n with children := cs }) c = vertexOf h c := by
  have ht : this < h.length := (List.getElem?_eq_some.mp hn).1
  by_cases hct : c = this
  · subst hct
    simp only [vertexOf, List.getElem?_set_self ht, hn, STNode.get_vertex]
  · simp only [vertexOf, List.getElem?_set_ne (Ne.symm hct)]

/-- C10: when the children of a node are strictly ascending by vertex and
`child` is a node whose vertex is strictly greater than the vertex of every
existing child, the children after `append_child(child)` are strictly
ascending by vertex. -/
theorem append_child_preserves_ascending (h : Heap) (this child : Ptr) (n nc : STNode)
    (hn : h[this]? = some n) (ha : Ascending h n.children) (hc : h[child]? = some nc)
    (hgt : ∀ c ∈ n.children, vertexOf h c < vertexOf h child) :
    ∃ h' n', append_child h this child = .ok h' ∧ h'[this]? = some n' ∧
      n'.children = n.children ++ [child] ∧ Ascending h' n'.children := by
  have ht : this < h.length := (List.getElem?_eq_some.mp hn).1
  have hcl : child < h.length := (List.getElem?_eq_some.mp hc).1
  refine ⟨h.set this { n with children := n.children ++ [child] },
    { n with children := n.children ++ [child] }, ?_, List.getElem?_set_self ht, rfl, ?_, ?_⟩
  · simp only [append_child, hn]
  · intro c hcm
    rw [List.length_set]
    rcases List.mem_append.mp hcm with hcm | hcm
    · exact ha.1 c hcm
    · rw [List.mem_singleton.mp hcm]
      exact hcl
  · have hvs : vertices (h.set this { n with children := n.children ++ [child] })
        (n.children ++ [child]) = vertices h n.children ++ [vertexOf h child] := by
      unfold vertices
      rw [List.map_append, List.map_singleton]
      congr 1
      · apply List.map_congr_left
        intro c _
        exact vertexOf_set hn _ c
      · rw [vertexOf_set hn _ child]
    show (vertices _ (n.children ++ [child])).Pairwise (· < ·)
    rw [hvs, List.pairwise_append]
    refine ⟨ha.2, List.pairwise_singleton _ _, ?_⟩
    intro a ha' b hb
    rw [List.mem_singleton.mp hb]
    obtain ⟨c, hcm, hcv⟩ := mem_vertices_iff.mp ha'
    rw [← hcv]
    exact hgt c hcm

/-- Witness of C10: a node with vertex `9`, constructed in the sample heap at
address `4`, is appended to the root, whose children have vertices `1, 3, 5`. -/
theorem append_child_preserves_ascending_witness :
    ((alloc sampleHeap (STNode.node 9 (some 0) 0 0 (-1))).1[0]? = some sampleRoot ∧
      Ascending (alloc sampleHeap (STNode.node 9 (some 0) 0 0 (-1))).1 sampleRoot.children ∧
      (alloc sampleHeap (STNode.node 9 (some 0) 0 0 (-1))).1[4]? =
        some (STNode.node 9 (some 0) 0 0 (-1)) ∧
      ∀ c ∈ sampleRoot.children,
        vertexOf (alloc sampleHeap (STNode.node 9 (some 0) 0 0 (-1))).1 c <
          vertexOf (alloc sampleHeap (STNode.node 9 (some 0) 0 0 (-1))).1 4) ∧
    ∃ h' n', append_child (alloc sampleHeap (STNode.node 9 (some 0) 0 0 (-1))).1 0 4 = .ok h' ∧
      h'[0]? = some n' ∧ n'.children = sampleRoot.children ++ [4] ∧
      Ascending h' n'.children :=
  ⟨⟨rfl, by decide, rfl, by decide⟩,
    append_child_preserves_ascending (alloc sampleHeap (STNode.node 9 (some 0) 0 0 (-1))).1 0 4
      sampleRoot (STNode.node 9 (some 0) 0 0 (-1)) rfl (by decide) rfl (by decide)⟩

/-- C11: on a fresh root, `append_child` of a node with vertex `5`, then
`append_child` of a node with vertex `1`, then `add_child(1, x, y)`: every
call returns normally, the search of `add_child` leaves `found = -1` although
the child at index `1` has vertex `1`, a new node is created at a fresh
address, and afterwards the children have vertices `1, 5, 1`, so two
children have the same vertex. -/
theorem append_child_violation_duplicates (x y : Int) :
    ∃ h n h' r n',
      unsortedHeap = .ok h ∧ h[0]? = some n ∧ childVertices h 0 = [5, 1] ∧
      (∃ c, n.children[1]? = some c ∧ vertexOf h c = 1) ∧
      (search32 h n.children 1).map (fun s => s.found) = .ok (-1) ∧
      add_child h 0 1 x y = .ok (h', r) ∧
      r = h.length ∧ h'.length = h.length + 1 ∧ r ∉ n.children ∧
      h'[r]? = some (STNode.node 1 (some 0) x y (-1)) ∧
      h'[0]? = some n' ∧ n'.children.length = n.children.length + 1 ∧
      childVertices h' 0 = [1, 5, 1] ∧ ¬ (childVertices h' 0).Nodup ∧
      ¬ Ascending h' n'.children := by
  refine ⟨_, _, _, _, _, rfl, rfl, rfl, ⟨_, rfl, rfl⟩, rfl, rfl, rfl, rfl, by decide, rfl, rfl,
    rfl, rfl, ?_, ?_⟩
  · intro hnd
    have hnd2 : ([1, 5, 1] : List Int).Nodup := hnd
    exact absurd hnd2 (by decide)
  · intro ha
    have hp : ([1, 5, 1] : List Int).Pairwise (· < ·) := ha.2
    exact absurd hp (by decide)

theorem toUnsigned_toInt {x : Int} (hx : IsUnsigned x) : toUnsigned (toInt x) = x := by
  unfold IsUnsigned at hx
  unfold toUnsigned toInt
  omega

theorem callSet_ok {h : Heap} {this : Ptr} {n : STNode} (m : STNode → STNode)
    (hn : h[this]? = some n) :
    callSet h this m = .ok (h.set this (m n)) ∧ (h.set this (m n))[this]? = some (m n) ∧
      (h.set this (m n)).length = h.length ∧
      ∀ p, p ≠ this → (h.set this (m n))[p]? = h[p]? := by
  have ht : this < h.length := (List.getElem?_eq_some.mp hn).1
  refine ⟨by simp only [callSet, hn], List.getElem?_set_self ht, List.length_set _ _ _, ?_⟩
  intro p hp
  exact List.getElem?_set_ne (Ne.symm hp)

theorem callGet_ok {h : Heap} {this : Ptr} {n : STNode} (m : STNode → Int)
    (hn : h[this]? = some n) : callGet h this m = .ok (h, m n) := by
  simp only [callGet, hn]

/-- C12: on a node of the heap the accessors and mutators are plain field
accesses.  A setter followed by its getter returns the value set (`set_x`,
`set_y` for every 32-bit unsigned value, the index setters for every value);
a setter changes only its own field of the receiver, so restoring that field
gives the old node back, and leaves every other cell of the heap unchanged; a
getter returns the field and leaves the heap unchanged; all of them return
normally. -/
theorem accessors_mutators_plain (h : Heap) (this : Ptr) (n : STNode) (x y i j : Int)
    (hn : h[this]? = some n) (hx : IsUnsigned x) (hy : IsUnsigned y) :
    ((n.set_x x).grade_x = x ∧ (n.set_y y).grade_y = y ∧
      (n.set_global_index i).global_index = i ∧ (n.set_dim_index j).dim_index = j) ∧
    ({ n.set_x x with mg_x := n.mg_x } = n ∧ { n.set_y y with mg_y := n.mg_y } = n ∧
      { n.set_global_index i with g_index := n.g_index } = n ∧
      { n.set_dim_index j with d_index := n.d_index } = n) ∧
    (∃ h1 h2 h3 h4,
      callSet h this (fun m => m.set_x x) = .ok h1 ∧ callGet h1 this STNode.grade_x = .ok (h1, x) ∧
      callSet h this (fun m => m.set_y y) = .ok h2 ∧ callGet h2 this STNode.grade_y = .ok (h2, y) ∧
      callSet h this (fun m => m.set_global_index i) = .ok h3 ∧
      callGet h3 this STNode.global_index = .ok (h3, i) ∧
      callSet h this (fun m => m.set_dim_index j) = .ok h4 ∧
      callGet h4 this STNode.dim_index = .ok (h4, j) ∧
      h1[this]? = some (n.set_x x) ∧ h2[this]? = some (n.set_y y) ∧
      h3[this]? = some (n.set_global_index i) ∧ h4[this]? = some (n.set_dim_index j) ∧
      (∀ p, p ≠ this → h1[p]? = h[p]? ∧ h2[p]? = h[p]? ∧ h3[p]? = h[p]? ∧ h4[p]? = h[p]?)) ∧
    (callGet h this STNode.get_vertex = .ok (h, n.vertex) ∧
      callGet h this STNode.grade_x = .ok (h, toUnsigned n.mg_x) ∧
      callGet h this STNode.grade_y = .ok (h, toUnsigned n.mg_y) ∧
      callGet h this STNode.global_index = .ok (h, n.g_index) ∧
      callGet h this STNode.dim_index = .ok (h, n.d_index)) := by
  have hgx : (n.set_x x).grade_x = x := toUnsigned_toInt hx
  have hgy : (n.set_y y).grade_y = y := toUnsigned_toInt hy
  obtain ⟨a1, b1, _, c1⟩ := callSet_ok (fun m => m.set_x x) hn
  obtain ⟨a2, b2, _, c2⟩ := callSet_ok (fun m => m.set_y y) hn
  obtain ⟨a3, b3, _, c3⟩ := callSet_ok (fun m => m.set_global_index i) hn
  obtain ⟨a4, b4, _, c4⟩ := callSet_ok (fun m => m.set_dim_index j) hn
  refine ⟨⟨hgx, hgy, rfl, rfl⟩, ⟨rfl, rfl, rfl, rfl⟩, ⟨_, _, _, _, a1, ?_, a2, ?_, a3, ?_, a4, ?_,
    b1, b2, b3, b4, fun p hp => ⟨c1 p hp, c2 p hp, c3 p hp, c4 p hp⟩⟩, ?_⟩
  · rw [callGet_ok _ b1, hgx]
  · rw [callGet_ok _ b2, hgy]
  · exact callGet_ok _ b3
  · exact callGet_ok _ b4
  · exact ⟨callGet_ok _ hn, callGet_ok _ hn, callGet_ok _ hn, callGet_ok _ hn, callGet_ok _ hn⟩

/-- Witness of C12: the setters called on the node with vertex `5` of the
sample heap, with the largest 32-bit unsigned value for `set_x`. -/
theorem accessors_mutators_plain_witness :
    (sampleHeap[3]? = some (STNode.node 5 (some 0) 0 0 (-1)) ∧ IsUnsigned 4294967295 ∧
      IsUnsigned 7) ∧
    (callSet sampleHeap 3 (fun m => m.set_x 4294967295)).bind
        (fun h1 => (callGet h1 3 STNode.grade_x).map (fun r => r.2)) = .ok 4294967295 ∧
    (((STNode.node 5 (some 0) 0 0 (-1)).set_x 4294967295).grade_x = 4294967295 ∧
      ((STNode.node 5 (some 0) 0 0 (-1)).set_y 7).grade_y = 7 ∧
      ((STNode.node 5 (some 0) 0 0 (-1)).set_global_index 11).global_index = 11 ∧
      ((STNode.node 5 (some 0) 0 0 (-1)).set_dim_index 12).dim_index = 12) :=
  ⟨by decide, by decide,
    (accessors_mutators_plain sampleHeap 3 (STNode.node 5 (some 0) 0 0 (-1)) 4294967295 7 11 12
      rfl (by decide) (by decide)).1⟩

/-! ## The recursive teardown -/

theorem deleteEach_spec (del : Ptr → Except Fault (List Ptr)) (S : Ptr → Ptr → Prop) :
    ∀ (cs : List Ptr),
      (∀ c ∈ cs, ∃ l, del c = .ok l ∧ l.Nodup ∧ ∀ q, q ∈ l ↔ S c q) → cs.Nodup →
      (∀ c1 ∈ cs, ∀ c2 ∈ cs, c1 ≠ c2 → ∀ q, S c1 q → S c2 q → False) →
      ∃ L, deleteEach del cs = .ok L ∧ L.Nodup ∧ ∀ q, q ∈ L ↔ ∃ c ∈ cs, S c q := by
  intro cs
  induction cs with
  | nil =>
    intro _ _ _
    exact ⟨[], rfl, List.nodup_nil, by simp⟩
  | cons c cs ih =>
    intro hdel hnd hdisj
    obtain ⟨l, hl, hlnd, hlmem⟩ := hdel c (List.mem_cons_self c cs)
    obtain ⟨hc, hnd'⟩ := List.nodup_cons.mp hnd
    obtain ⟨L, hL, hLnd, hLmem⟩ := ih
      (fun c' hc' => hdel c' (List.mem_cons_of_mem c hc')) hnd'
      (fun c1 h1 c2 h2 => hdisj c1 (List.mem_cons_of_mem c h1) c2 (List.mem_cons_of_mem c h2))
    refine ⟨l ++ L, by simp only [deleteEach, hl, hL], ?_, ?_⟩
    · rw [List.nodup_append]
      refine ⟨hlnd, hLnd, ?_⟩
      intro q hq1 hq2
      obtain ⟨c', hc', hS'⟩ := (hLmem q).mp hq2
      have hne : c ≠ c' := fun he => hc (he ▸ hc')
      exact hdisj c (List.mem_cons_self c cs) c' (List.mem_cons_of_mem c hc') hne q
        ((hlmem q).mp hq1) hS'
    · intro q
      rw [List.mem_append, hlmem q, hLmem q]
      constructor
      · rintro (hS | ⟨c', hc', hS'⟩)
        · exact ⟨c, List.mem_cons_self c cs, hS⟩
        · exact ⟨c', List.mem_cons_of_mem c hc', hS'⟩
      · rintro ⟨c', hc', hS'⟩
        rcases List.mem_cons.mp hc' with rfl | hc'
        · exact Or.inl hS'
        · exact Or.inr ⟨c', hc', hS'⟩

theorem inSubtree_height {h : Heap} {root : Ptr} (height : Ptr → Nat)
    (hnode : ∀ a c, InSubtree h root a → Child h a c → c < h.length ∧ height c < height a)
    {a b : Ptr} (ha : InSubtree h root a) (hab : InSubtree h a b) : height b ≤ height a := by
  induction hab with
  | refl => exact le_refl _
  | tail hac hcb ih =>
    have := (hnode _ _ (Relation.ReflTransGen.trans ha hac) hcb).2
    omega

theorem inSubtree_comparable {h : Heap} {root : Ptr}
    (hone : ∀ a b c, InSubtree h root a → InSubtree h root b → Child h a c → Child h b c →
      a = b)
    {a b x : Ptr} (hax : InSubtree h a x) (hbx : InSubtree h b x) (ha : InSubtree h root a)
    (hb : InSubtree h root b) : InSubtree h a b ∨ InSubtree h b a := by
  revert ha
  refine Relation.ReflTransGen.head_induction_on hax ?_ ?_
  · intro _
    exact Or.inr hbx
  · intro a c hac _ ih ha
    have hc : InSubtree h root c := Relation.ReflTransGen.tail ha hac
    rcases ih hc with hcb | hbc
    · exact Or.inl (Relation.ReflTransGen.head hac hcb)
    · rcases Relation.ReflTransGen.cases_tail hbc with he | ⟨d, hbd, hdc⟩
      · subst he
        exact Or.inl (Relation.ReflTransGen.single hac)
      · have had : a = d := hone a d c ha (Relation.ReflTransGen.trans hb hbd) hac hdc
        subst had
        exact Or.inr hbd

theorem siblings_disjoint {h : Heap} {root : Ptr} (height : Ptr → Nat)
    (hnode : ∀ a c, InSubtree h root a → Child h a c → c < h.length ∧ height c < height a)
    (hone : ∀ a b c, InSubtree h root a → InSubtree h root b → Child h a c → Child h b c →
      a = b)
    {p c1 c2 x : Ptr} (hp : InSubtree h root p) (h1 : Child h p c1) (h2 : Child h p c2)
    (hne : c1 ≠ c2) (hx1 : InSubtree h c1 x) (hx2 : InSubtree h c2 x) : False := by
  have hr1 : InSubtree h root c1 := Relation.ReflTransGen.tail hp h1
  have hr2 : InSubtree h root c2 := Relation.ReflTransGen.tail hp h2
  have key : ∀ {u w : Ptr}, Child h p u → Child h p w → u ≠ w → InSubtree h root u →
      InSubtree h u w → False := by
    intro u w hu hw huw hru huw'
    rcases Relation.ReflTransGen.cases_tail huw' with he | ⟨d, hud, hdw⟩
    · exact huw he.symm
    · have hdp : d = p := hone d p w (Relation.ReflTransGen.trans hru hud) hp hdw hw
      subst hdp
      have hle := inSubtree_height height hnode hru hud
      have hlt := (hnode _ _ hp hu).2
      omega
  rcases inSubtree_comparable hone hx1 hx2 hr1 hr2 with h12 | h21
  · exact key h1 h2 hne hr1 h12
  · exact key h2 h1 (Ne.symm hne) hr2 h21

theorem inSubtree_valid {h : Heap} {root : Ptr} (height : Ptr → Nat) (hroot : root < h.length)
    (hnode : ∀ a c, InSubtree h root a → Child h a c → c < h.length ∧ height c < height a)
    {p : Ptr} (hp : InSubtree h root p) : p < h.length := by
  rcases Relation.ReflTransGen.cases_tail hp with he | ⟨d, hd, hdp⟩
  · rw [he]
    exact hroot
  · exact (hnode d p hd hdp).1

/-- The teardown of a node of a tree, given fuel above its height: it returns
normally, frees no address twice and frees exactly the nodes of the subtree,
the node itself last. -/
theorem deleteNode_spec {h : Heap} {root : Ptr} (height : Ptr → Nat) (hroot : root < h.length)
    (hnode : ∀ a c, InSubtree h root a → Child h a c → c < h.length ∧ height c < height a)
    (hone : ∀ a b c, InSubtree h root a → InSubtree h root b → Child h a c → Child h b c →
      a = b)
    (hnodup : ∀ (a : Ptr) (n : STNode), InSubtree h root a → h[a]? = some n →
      n.children.Nodup) :
    ∀ (fuel : Nat) (p : Ptr), InSubtree h root p → height p < fuel →
      ∃ L, deleteNode h fuel p = .ok (L ++ [p]) ∧ (L ++ [p]).Nodup ∧
        ∀ q, q ∈ L ++ [p] ↔ InSubtree h p q := by
  intro fuel
  induction fuel with
  | zero =>
    intro p _ hf
    exact absurd hf (Nat.not_lt_zero _)
  | succ fuel ih =>
    intro p hp hf
    have hpl : p < h.length := inSubtree_valid height hroot hnode hp
    have hn : h[p]? = some h[p] := List.getElem?_eq_getElem hpl
    have hch : ∀ c, c ∈ h[p].children → Child h p c := fun c hc => ⟨_, hn, hc⟩
    have hdel : ∀ c ∈ h[p].children,
        ∃ l, (fun c => deleteNode h fuel c) c = .ok l ∧ l.Nodup ∧ ∀ q, q ∈ l ↔ InSubtree h c q := by
      intro c hc
      have hlt := (hnode p c hp (hch c hc)).2
      obtain ⟨L, hL, hLnd, hLmem⟩ := ih c (Relation.ReflTransGen.tail hp (hch c hc)) (by omega)
      exact ⟨L ++ [c], hL, hLnd, hLmem⟩
    obtain ⟨L, hL, hLnd, hLmem⟩ := deleteEach_spec (fun c => deleteNode h fuel c) (InSubtree h)
      h[p].children hdel (hnodup p _ hp hn)
      (fun c1 h1 c2 h2 hne q hq1 hq2 =>
        siblings_disjoint height hnode hone hp (hch c1 h1) (hch c2 h2) hne hq1 hq2)
    refine ⟨L, by simp only [deleteNode, hn, hL], ?_, ?_⟩
    · rw [List.nodup_append]
      refine ⟨hLnd, List.nodup_singleton p, ?_⟩
      intro q hq1 hq2
      rw [List.mem_singleton] at hq2
      subst hq2
      obtain ⟨c, hc, hcq⟩ := (hLmem q).mp hq1
      have hlt := (hnode q c hp (hch c hc)).2
      have hle := inSubtree_height height hnode
        (Relation.ReflTransGen.tail hp (hch c hc)) hcq
      omega
    · intro q
      rw [List.mem_append, List.mem_singleton, hLmem q]
      constructor
      · rintro (⟨c, hc, hcq⟩ | rfl)
        · exact Relation.ReflTransGen.head (hch c hc) hcq
        · exact Relation.ReflTransGen.refl
      · intro hpq
        rcases Relation.ReflTransGen.cases_head hpq with he | ⟨c, ⟨n, hn', hc⟩, hcq⟩
        · exact Or.inr he.symm
        · rw [hn] at hn'
          cases hn'
          exact Or.inl ⟨c, hc, hcq⟩

/-- C13: in a finite tree of nodes (every child is a node of the heap and lies
strictly below its parent for some height function) in which each node occurs
at most once and in the children collection of at most one node, the
recursive teardown started at the root, given fuel above the height of the
root, returns normally; it frees every node of the subtree of the root and
nothing else, each exactly once, children before their parent and the root
last. -/
theorem teardown_exactly_once (h : Heap) (root : Ptr) (height : Ptr → Nat)
    (hroot : root < h.length)
    (hnode : ∀ a c, InSubtree h root a → Child h a c → c < h.length ∧ height c < height a)
    (hone : ∀ a b c, InSubtree h root a → InSubtree h root b → Child h a c → Child h b c →
      a = b)
    (hnodup : ∀ (a : Ptr) (n : STNode), InSubtree h root a → h[a]? = some n →
      n.children.Nodup) :
    ∀ fuel : Nat, height root < fuel →
      ∃ L, deleteNode h fuel root = .ok (L ++ [root]) ∧ (L ++ [root]).Nodup ∧
        (∀ q, q ∈ L ++ [root] ↔ InSubtree h root q) ∧
        (∀ q, InSubtree h root q → (L ++ [root]).count q = 1) ∧
        (∀ q, ¬ InSubtree h root q → (L ++ [root]).count q = 0) := by
  intro fuel hf
  obtain ⟨L, hL, hnd, hmem⟩ := deleteNode_spec height hroot hnode hone hnodup fuel root
    Relation.ReflTransGen.refl hf
  refine ⟨L, hL, hnd, hmem, ?_, ?_⟩
  · intro q hq
    exact List.count_eq_one_of_mem hnd ((hmem q).mpr hq)
  · intro q hq
    exact List.count_eq_zero_of_not_mem (fun hm => hq ((hmem q).mp hm))

theorem child_deepHeap {a c : Ptr} (hc : Child deepHeap a c) :
    (a = 0 ∧ (c = 1 ∨ c = 2)) ∨ (a = 1 ∧ c = 3) := by
  obtain ⟨n, hn, hcm⟩ := hc
  have hal : a < 4 := (List.getElem?_eq_some.mp hn).1
  have hget : deepHeap[a]? = some n := hn
  match a, hal, hget with
  | 0, _, hget =>
    cases hget
    left
    refine ⟨rfl, ?_⟩
    have : c ∈ [1, 2] := hcm
    simpa using this
  | 1, _, hget =>
    cases hget
    right
    refine ⟨rfl, ?_⟩
    have : c ∈ [3] := hcm
    simpa using this
  | 2, _, hget =>
    cases hget
    exact absurd hcm (List.not_mem_nil c)
  | 3, _, hget =>
    cases hget
    exact absurd hcm (List.not_mem_nil c)

/-- Witness of C13: the teardown of the tree of depth two of `deepHeap`, from
its root, frees the four nodes in the order `3, 1, 2, 0`. -/
theorem teardown_exactly_once_witness :
    (∀ fuel : Nat, deepHeight 0 < fuel →
      ∃ L, deleteNode deepHeap fuel 0 = .ok (L ++ [0]) ∧ (L ++ [0]).Nodup ∧
        (∀ q, q ∈ L ++ [0] ↔ InSubtree deepHeap 0 q) ∧
        (∀ q, InSubtree deepHeap 0 q → (L ++ [0]).count q = 1) ∧
        (∀ q, ¬ InSubtree deepHeap 0 q → (L ++ [0]).count q = 0)) ∧
    deleteNode deepHeap 3 0 = .ok [3, 1, 2, 0] :=
  ⟨teardown_exactly_once deepHeap 0 deepHeight (by decide)
    (by
      intro a c _ hc
      rcases child_deepHeap hc with ⟨rfl, rfl | rfl⟩ | ⟨rfl, rfl⟩ <;> decide)
    (by
      intro a b c _ _ hac hbc
      rcases child_deepHeap hac with ⟨rfl, rfl | rfl⟩ | ⟨rfl, rfl⟩ <;>
        rcases child_deepHeap hbc with ⟨rfl, h1 | h1⟩ | ⟨rfl, h1⟩ <;>
          first
            | rfl
            | exact absurd h1 (by decide))
    (by
      intro a n _ hn
      have hall : ∀ m ∈ deepHeap, m.children.Nodup := by decide
      exact hall n (List.mem_iff_getElem?.mpr ⟨a, hn⟩)),
    by decide⟩


/-! ## Range and termination of the search -/

theorem lookup_inserted_cases {h : Heap} {this : Ptr} (nd n' : STNode) (ht : this < h.length)
    {a : Ptr} {na : STNode} (ha : ((h ++ [nd]).set this n')[a]? = some na) :
    (a = this ∧ na = n') ∨ (a = h.length ∧ na = nd) ∨
      (a ≠ this ∧ a < h.length ∧ h[a]? = some na) := by
  by_cases hat : a = this
  · subst hat
    rw [lookup_this nd n' ht] at ha
    cases ha
    exact Or.inl ⟨rfl, rfl⟩
  · right
    have hal : a < (h ++ [nd]).length := by
      have := (List.getElem?_eq_some.mp ha).1
      rwa [List.length_set] at this
    rw [List.length_append, List.length_singleton] at hal
    by_cases hlt : a < h.length
    · rw [lookup_old nd n' hlt hat] at ha
      exact Or.inr ⟨hat, hlt, ha⟩
    · have hae : a = h.length := Nat.eq_of_lt_succ_of_not_lt hal hlt
      subst hae
      rw [lookup_new nd n' ht] at ha
      cases ha
      exact Or.inl ⟨rfl, rfl⟩


theorem add_child_receiver {h : Heap} {t : Ptr} {v x y : Int} {h1 : Heap} {r : Ptr}
    (hadd : add_child h t v x y = .ok (h1, r)) : ∃ n, h[t]? = some n := by
  cases hn : h[t]? with
  | none =>
    simp only [add_child, hn] at hadd
    cases hadd
  | some n => exact ⟨n, rfl⟩

/-- One call of `add_child` that returns, on a node of a tree: it keeps the
structural invariant and the vertex and parent of every existing node, returns
a node of the heap and allocates at most one node. -/
theorem add_child_treeInv {h : Heap} {root t : Ptr} (v x y : Int) (hinv : TreeInv h root)
    {h1 : Heap} {r : Ptr} (hadd : add_child h t v x y = .ok (h1, r)) :
    TreeInv h1 root ∧ r < h1.length ∧ h.length ≤ h1.length ∧ h1.length ≤ h.length + 1 ∧
      (∀ (a : Ptr) (na : STNode), h[a]? = some na →
        ∃ na' : STNode, h1[a]? = some na' ∧ na'.vertex = na.vertex ∧
          na'.parent = na.parent) := by
  obtain ⟨⟨n0, hn0, hvx0, hp0⟩, hchild, hroot⟩ := hinv
  obtain ⟨n, hn⟩ := add_child_receiver hadd
  have ht : t < h.length := (List.getElem?_eq_some.mp hn).1
  have hvalid : ∀ c ∈ n.children, c < h.length := by
    intro c hc
    obtain ⟨nc, hnc, _⟩ := hchild t _ hn c hc
    exact (List.getElem?_eq_some.mp hnc).1
  rcases add_child_shape v x y hn hadd with ⟨rfl, hcm⟩ | ⟨k, hk, rfl, rfl⟩
  · exact ⟨⟨⟨n0, hn0, hvx0, hp0⟩, hchild, hroot⟩, hvalid r hcm, le_refl _, Nat.le_succ _,
      fun a na ha => ⟨na, ha, rfl, rfl⟩⟩
  · have hkeep : ∀ (a : Ptr) (na : STNode), h[a]? = some na →
        ∃ na' : STNode, ((h ++ [STNode.node v (some t) x y (-1)]).set t
            { n with children := n.children.take k ++ h.length :: n.children.drop k })[a]?
          = some na' ∧ na'.vertex = na.vertex ∧ na'.parent = na.parent := by
      intro a na ha
      by_cases hat : a = t
      · subst hat
        rw [hn] at ha
        cases ha
        exact ⟨_, lookup_this _ _ ht, rfl, rfl⟩
      · exact ⟨na, by rw [lookup_old _ _ (List.getElem?_eq_some.mp ha).1 hat, ha], rfl, rfl⟩
    refine ⟨⟨?_, ?_, ?_⟩, ?_, ?_, ?_, hkeep⟩
    · obtain ⟨n0', h1, h2, h3⟩ := hkeep root n0 hn0
      exact ⟨n0', h1, by rw [h2, hvx0], by rw [h3, hp0]⟩
    · intro a na ha c hc
      rcases lookup_inserted_cases _ _ ht ha with ⟨rfl, rfl⟩ | ⟨rfl, rfl⟩ | ⟨hat, hal, hah⟩
      · rcases List.mem_append.mp hc with hc | hc
        · obtain ⟨nc, hnc, hpc⟩ := hchild a _ hn c (List.mem_of_mem_take hc)
          obtain ⟨nc', h1, _, h3⟩ := hkeep c nc hnc
          exact ⟨nc', h1, by rw [h3, hpc]⟩
        · rcases List.mem_cons.mp hc with rfl | hc
          · exact ⟨_, lookup_new _ _ ht, rfl⟩
          · obtain ⟨nc, hnc, hpc⟩ := hchild a _ hn c (List.mem_of_mem_drop hc)
            obtain ⟨nc', h1, _, h3⟩ := hkeep c nc hnc
            exact ⟨nc', h1, by rw [h3, hpc]⟩
      · simp [STNode.node] at hc
      · obtain ⟨nc, hnc, hpc⟩ := hchild a na hah c hc
        obtain ⟨nc', h1, _, h3⟩ := hkeep c nc hnc
        exact ⟨nc', h1, by rw [h3, hpc]⟩
    · intro a na ha hpa
      rcases lookup_inserted_cases _ _ ht ha with ⟨rfl, rfl⟩ | ⟨rfl, rfl⟩ | ⟨hat, hal, hah⟩
      · exact hroot a _ hn hpa
      · simp [STNode.node] at hpa
      · exact hroot a na hah hpa
    · rw [List.length_set, List.length_append, List.length_singleton]
      exact Nat.lt_succ_self _
    · rw [List.length_set, List.length_append, List.length_singleton]
      exact Nat.le_succ _
    · rw [List.length_set, List.length_append, List.length_singleton]

/-- A call of `add_child` that returns keeps the bound of the size of every
children collection by the number of the other nodes of the heap. -/
theorem add_child_children_bound {h : Heap} {t : Ptr} (v x y : Int)
    (hs : ∀ (a : Ptr) (n : STNode), h[a]? = some n → n.children.length + 1 ≤ h.length)
    {h1 : Heap} {r : Ptr} (hadd : add_child h t v x y = .ok (h1, r)) :
    ∀ (a : Ptr) (n : STNode), h1[a]? = some n → n.children.length + 1 ≤ h1.length := by
  obtain ⟨n, hn⟩ := add_child_receiver hadd
  have ht : t < h.length := (List.getElem?_eq_some.mp hn).1
  rcases add_child_shape v x y hn hadd with ⟨rfl, _⟩ | ⟨k, hk, _, rfl⟩
  · exact hs
  · intro a na ha
    rw [List.length_set, List.length_append, List.length_singleton]
    rcases lookup_inserted_cases _ _ ht ha with ⟨rfl, rfl⟩ | ⟨rfl, rfl⟩ | ⟨hat, hal, hah⟩
    · have hb := hs a n hn
      simp only [List.length_append, List.length_cons, List.length_take, List.length_drop]
      omega
    · exact Nat.succ_le_succ (Nat.zero_le _)
    · exact Nat.le_succ_of_le (hs a na hah)

/-- A call of `add_child` on a node of a tree with at most `2^30` children
returns. -/
theorem add_child_returns {h : Heap} {root t : Ptr} {n : STNode} (v x y : Int)
    (hinv : TreeInv h root) (hn : h[t]? = some n) (hsize : n.children.length ≤ 1073741824) :
    ∃ h1 r, add_child h t v x y = .ok (h1, r) := by
  rcases add_child_general v x y hn hsize with ⟨_, c, hc, hlen⟩ | ⟨c, hadd, _⟩ | ⟨k, _, hadd⟩
  · obtain ⟨nc, hnc, _⟩ := hinv.2.1 t n hn c hc
    exact absurd (List.getElem?_eq_some.mp hnc).1 (Nat.not_lt.mpr hlen)
  · exact ⟨_, _, hadd⟩
  · exact ⟨_, _, hadd⟩

theorem build_treeInv (calls : List (Ptr × Int × Int × Int)) :
    ∀ {h : Heap} {root : Ptr} {h' : Heap}, TreeInv h root → build h calls = .ok h' →
      TreeInv h' root := by
  induction calls with
  | nil =>
    intro h root h' hinv hb
    cases hb
    exact hinv
  | cons c rest ih =>
    intro h root h' hinv hb
    obtain ⟨t, v, x, y⟩ := c
    cases hadd : add_child h t v x y with
    | error e =>
      simp only [build, hadd] at hb
      cases hb
    | ok p =>
      obtain ⟨h1, r⟩ := p
      simp only [build, hadd] at hb
      exact ih (add_child_treeInv v x y hinv hadd).1 hb

/-- A sequence of calls of `add_child` on a tree whose heap, with the calls
still to come, holds at most `2^30 + 2` nodes: it returns, unless a call is on
an address that is not a node. -/
theorem build_returns (calls : List (Ptr × Int × Int × Int)) :
    ∀ {h : Heap} {root : Ptr}, TreeInv h root →
      (∀ (a : Ptr) (n : STNode), h[a]? = some n → n.children.length + 1 ≤ h.length) →
      h.length + calls.length ≤ 1073741826 →
      (build h calls = .error .danglingPointer ∨ ∃ h', build h calls = .ok h') := by
  induction calls with
  | nil =>
    intro h root _ _ _
    exact Or.inr ⟨h, rfl⟩
  | cons c rest ih =>
    intro h root hinv hs hlen
    obtain ⟨t, v, x, y⟩ := c
    rw [List.length_cons] at hlen
    by_cases ht : t < h.length
    · have hn : h[t]? = some h[t] := List.getElem?_eq_getElem ht
      have hb := hs t _ hn
      obtain ⟨h1, r, hadd⟩ := add_child_returns v x y hinv hn (by omega)
      obtain ⟨hinv1, _, _, hle, _⟩ := add_child_treeInv v x y hinv hadd
      rcases ih hinv1 (add_child_children_bound v x y hs hadd) (by omega) with he | ⟨h', hb'⟩
      · left
        simp only [build, hadd, he]
      · right
        exact ⟨h', by simp only [build, hadd, hb']⟩
    · left
      have hnone : h[t]? = none := List.getElem?_eq_none (Nat.le_of_not_lt ht)
      simp only [build, add_child, hnone]

/-- C16: in a heap holding a freshly constructed root the structural invariant
holds at the start and in every heap that a sequence of `add_child` calls
leaves: every node in the children collection of a node `a` has parent `a`,
the root is the only node without a parent and its vertex is `-1`.  A sequence
of at most `2^30 + 1` calls does leave a heap, unless a call is on an address
that is not a node.  A call of `add_child` that returns keeps the invariant
and the vertex and the parent of every existing node, and a call on a node of
the tree with at most `2^30` children returns.  No call of `append_child` or
of a setter changes the vertex or the parent of an existing node.  The last
clause runs a sequence with calls on the root, on a child and on a
grandchild. -/
theorem tree_parent_invariant (calls : List (Ptr × Int × Int × Int)) :
    TreeInv (alloc [] STNode.root).1 (alloc [] STNode.root).2 ∧
    (∀ h', build (alloc [] STNode.root).1 calls = .ok h' →
      TreeInv h' (alloc [] STNode.root).2) ∧
    (calls.length ≤ 1073741825 →
      (build (alloc [] STNode.root).1 calls = .error .danglingPointer ∨
        ∃ h', build (alloc [] STNode.root).1 calls = .ok h' ∧
          TreeInv h' (alloc [] STNode.root).2)) ∧
    (∀ (h h1 : Heap) (root t r : Ptr) (v x y : Int), TreeInv h root →
      add_child h t v x y = .ok (h1, r) →
        TreeInv h1 root ∧ r < h1.length ∧
        ∀ (a : Ptr) (na : STNode), h[a]? = some na →
          ∃ na' : STNode, h1[a]? = some na' ∧ na'.vertex = na.vertex ∧
            na'.parent = na.parent) ∧
    (∀ (h : Heap) (root t : Ptr) (n : STNode) (v x y : Int), TreeInv h root →
      h[t]? = some n → n.children.length ≤ 1073741824 →
        ∃ h1 r, add_child h t v x y = .ok (h1, r)) ∧
    (∀ (h h1 : Heap) (this child : Ptr), append_child h this child = .ok h1 →
      ∀ (a : Ptr) (na : STNode), h[a]? = some na →
        ∃ na' : STNode, h1[a]? = some na' ∧ na'.vertex = na.vertex ∧
          na'.parent = na.parent) ∧
    (∀ (n : STNode) (x : Int),
      ((n.set_x x).vertex = n.vertex ∧ (n.set_x x).parent = n.parent) ∧
      ((n.set_y x).vertex = n.vertex ∧ (n.set_y x).parent = n.parent) ∧
      ((n.set_global_index x).vertex = n.vertex ∧ (n.set_global_index x).parent = n.parent) ∧
      ((n.set_dim_index x).vertex = n.vertex ∧ (n.set_dim_index x).parent = n.parent)) ∧
    (build (alloc [] STNode.root).1
        [(0, 3, 0, 0), (1, 5, 1, 1), (2, 7, 2, 2), (0, 1, 0, 0), (1, 5, 9, 9)]).map
      (fun h' => h'.map (fun n => (n.vertex, n.parent, n.children))) =
      .ok [(-1, none, [4, 1]), (3, some 0, [2]), (5, some 1, [3]), (7, some 2, []),
        (1, some 0, [])] := by
  have hinit : TreeInv (alloc [] STNode.root).1 (alloc [] STNode.root).2 := by
    refine ⟨⟨STNode.root, rfl, rfl, rfl⟩, ?_, ?_⟩
    · intro a n ha c hc
      have hal : a < 1 := (List.getElem?_eq_some.mp ha).1
      have ha0 : a = 0 := Nat.lt_one_iff.mp hal
      subst ha0
      have hroot0 : (alloc [] STNode.root).1[0]? = some STNode.root := rfl
      rw [hroot0] at ha
      cases ha
      exact absurd hc (List.not_mem_nil c)
    · intro a n ha _
      have hal : a < 1 := (List.getElem?_eq_some.mp ha).1
      exact Nat.lt_one_iff.mp hal
  have hsize : ∀ (a : Ptr) (n : STNode), (alloc [] STNode.root).1[a]? = some n →
      n.children.length + 1 ≤ (alloc [] STNode.root).1.length := by
    intro a n ha
    have hal : a < 1 := (List.getElem?_eq_some.mp ha).1
    have ha0 : a = 0 := Nat.lt_one_iff.mp hal
    subst ha0
    have hroot0 : (alloc [] STNode.root).1[0]? = some STNode.root := rfl
    rw [hroot0] at ha
    cases ha
    exact le_refl 1
  refine ⟨hinit, ?_, ?_, ?_, ?_, ?_, ?_, by decide⟩
  · intro h' hb
    exact build_treeInv calls hinit hb
  · intro hlen
    have hl : (alloc [] STNode.root).1.length + calls.length ≤ 1073741826 := by
      show 1 + calls.length ≤ 1073741826
      omega
    rcases build_returns calls hinit hsize hl with he | ⟨h', hb⟩
    · exact Or.inl he
    · exact Or.inr ⟨h', hb, build_treeInv calls hinit hb⟩
  · intro h h1 root t r v x y hinv hadd
    obtain ⟨hinv1, hr, _, _, hkeep⟩ := add_child_treeInv v x y hinv hadd
    exact ⟨hinv1, hr, hkeep⟩
  · intro h root t n v x y hinv hn hsz
    exact add_child_returns v x y hinv hn hsz
  · intro h h1 this child happ a na ha
    cases hn : h[this]? with
    | none =>
      simp only [append_child, hn] at happ
      cases happ
    | some n =>
      simp only [append_child, hn] at happ
      cases happ
      have ht : this < h.length := (List.getElem?_eq_some.mp hn).1
      by_cases hat : a = this
      · subst hat
        rw [hn] at ha
        cases ha
        exact ⟨_, List.getElem?_set_self ht, rfl, rfl⟩
      · exact ⟨na, by rw [List.getElem?_set_ne (Ne.symm hat), ha], rfl, rfl⟩
  · intro n x
    exact ⟨⟨rfl, rfl⟩, ⟨rfl, rfl⟩, ⟨rfl, rfl⟩, ⟨rfl, rfl⟩⟩

/-! ## The copy returned by `get_parent` -/


theorem deleteNode_mem {h : Heap} {fuel : Nat} {p : Ptr} {l : List Ptr}
    (hd : deleteNode h fuel p = .ok l) : p ∈ l := by
  cases fuel with
  | zero => cases hd
  | succ fuel =>
    cases hn : h[p]? with
    | none =>
      simp only [deleteNode, hn] at hd
      cases hd
    | some n =>
      simp only [deleteNode, hn] at hd
      cases he : deleteEach (fun c => deleteNode h fuel c) n.children with
      | error e =>
        rw [he] at hd
        cases hd
      | ok l0 =>
        rw [he] at hd
        cases hd
        exact List.mem_append_right _ (List.mem_singleton_self p)

theorem deleteEach_mem (del : Ptr → Except Fault (List Ptr))
    (hdel : ∀ c l, del c = .ok l → c ∈ l) :
    ∀ (cs : List Ptr) (L : List Ptr), deleteEach del cs = .ok L → ∀ c ∈ cs, c ∈ L := by
  intro cs
  induction cs with
  | nil =>
    intro L _ c hc
    exact absurd hc (List.not_mem_nil c)
  | cons c0 cs ih =>
    intro L hL c hc
    cases h0 : del c0 with
    | error e =>
      simp only [deleteEach, h0] at hL
      cases hL
    | ok l0 =>
      cases h1 : deleteEach del cs with
      | error e =>
        simp only [deleteEach, h0, h1] at hL
        cases hL
      | ok l1 =>
        simp only [deleteEach, h0, h1] at hL
        cases hL
        rcases List.mem_cons.mp hc with rfl | hc
        · exact List.mem_append_left _ (hdel _ _ h0)
        · exact List.mem_append_right _ (ih l1 h1 c hc)

/-- C17, the divergence: for a node whose parent pointer is set and points to
a node of the heap, `get_parent()` returns a node value with the vertex,
grades, indices and children collection of the live parent, but the value is
not disconnected from the tree: its children collection holds the child
pointers of the live parent, and the destructor that runs when the value dies
deletes every one of them.  Whenever the call returns, every child of the live
parent is among the addresses freed, the receiver of the call included when it
is one of those children, while the cell of the live parent still lists them
as its children.  For a node without a parent `get_parent()` dereferences the
null pointer and has no result. -/
theorem get_parent_copy_frees_children (h : Heap) (fuel : Nat) (this : Ptr) (n : STNode)
    (hn : h[this]? = some n) :
    (∀ p np, n.parent = some p → h[p]? = some np →
      get_parent h fuel this = (destructor h fuel np).map (fun freed => (np, freed)) ∧
      ∀ copy freed, get_parent h fuel this = .ok (copy, freed) →
        copy.get_vertex = np.get_vertex ∧ copy.grade_x = np.grade_x ∧
        copy.grade_y = np.grade_y ∧ copy.global_index = np.global_index ∧
        copy.dim_index = np.dim_index ∧ copy.get_children = np.get_children ∧
        h[p]? = some np ∧ (∀ c ∈ np.children, c ∈ freed) ∧
        (this ∈ np.children → this ∈ freed)) ∧
    (n.parent = none → get_parent h fuel this = .error .nullDeref) := by
  constructor
  · intro p np hp hpp
    have hget : get_parent h fuel this =
        (destructor h fuel np).map (fun freed => (np, freed)) := by
      simp only [get_parent, hn, hp, deref, hpp]
      cases destructor h fuel np <;> rfl
    refine ⟨hget, ?_⟩
    intro copy freed hret
    rw [hget] at hret
    cases hd : destructor h fuel np with
    | error e =>
      rw [hd] at hret
      cases hret
    | ok l =>
      rw [hd] at hret
      have hall : ∀ c ∈ np.children, c ∈ l :=
        deleteEach_mem _ (fun c l0 hc => deleteNode_mem hc) np.children l hd
      cases hret
      exact ⟨rfl, rfl, rfl, rfl, rfl, rfl, hpp, hall, fun ht => hall this ht⟩
  · intro hp
    simp only [get_parent, hn, hp]

/-- Witness of C17: `get_parent()` on the node with vertex `5` of the sample
heap, at address `3`, whose parent is the root at address `0`.  The call
returns the value of the root and the destruction of that value frees the
addresses `2`, `1` and `3`: the three children of the live root, the receiver
of the call among them, which the root still lists as its children.  On the
root itself the call dereferences the null pointer. -/
theorem get_parent_copy_frees_children_witness :
    sampleHeap[3]? = some (STNode.node 5 (some 0) 0 0 (-1)) ∧
    ((∀ p np, (STNode.node 5 (some 0) 0 0 (-1)).parent = some p → sampleHeap[p]? = some np →
      get_parent sampleHeap 1 3 = (destructor sampleHeap 1 np).map (fun freed => (np, freed)) ∧
      ∀ copy freed, get_parent sampleHeap 1 3 = .ok (copy, freed) →
        copy.get_vertex = np.get_vertex ∧ copy.grade_x = np.grade_x ∧
        copy.grade_y = np.grade_y ∧ copy.global_index = np.global_index ∧
        copy.dim_index = np.dim_index ∧ copy.get_children = np.get_children ∧
        sampleHeap[p]? = some np ∧ (∀ c ∈ np.children, c ∈ freed) ∧
        (3 ∈ np.children → 3 ∈ freed)) ∧
      ((STNode.node 5 (some 0) 0 0 (-1)).parent = none →
        get_parent sampleHeap 1 3 = .error .nullDeref)) ∧
    get_parent sampleHeap 1 3 = .ok (sampleRoot, [2, 1, 3]) ∧
    sampleHeap[0]? = some sampleRoot ∧ sampleRoot.children = [2, 1, 3] ∧
    get_parent sampleHeap 1 0 = .error .nullDeref :=
  ⟨rfl, get_parent_copy_frees_children sampleHeap 1 3 (STNode.node 5 (some 0) 0 0 (-1)) rfl,
    by decide, rfl, rfl, by decide⟩

/-! ## Frame of `add_child` and construct-then-append -/

/-- C20: for a children collection of at most `2^30` elements the index
arithmetic of `add_child` is exact in 32-bit `int`: `size - 1` converted to
`int` is `size - 1`; in every iteration `0 ≤ min ≤ max ≤ size - 1`, so
`min + max ≤ 2^31 - 2` is not changed by the reduction to 32 bits, `mid` is
the floor of `(min + max) / 2` with `min ≤ mid ≤ max`, and `mid + 1`,
`mid - 1` are not changed either; the 32-bit search is the search computed in
the integers. -/
theorem search_exact_in_int32 (h : Heap) (cs : List Ptr) (v : Int)
    (hsize : cs.length ≤ 1073741824) :
    (IsInt ((cs.length : Int) - 1) ∧
      toInt (toSize ((cs.length : Int) - 1)) = (cs.length : Int) - 1) ∧
    (∀ s, LoopStateExact h cs v s → s.max ≥ s.min →
      (0 ≤ s.min ∧ s.min ≤ s.max ∧ s.max ≤ (cs.length : Int) - 1) ∧
      (s.min + s.max ≤ 2147483646 ∧ IsInt (s.min + s.max) ∧
        toInt (s.min + s.max) = s.min + s.max) ∧
      (Int.tdiv (toInt (s.min + s.max)) 2 = (s.min + s.max) / 2 ∧
        2 * ((s.min + s.max) / 2) ≤ s.min + s.max ∧
        s.min + s.max < 2 * ((s.min + s.max) / 2) + 2 ∧
        s.min ≤ (s.min + s.max) / 2 ∧ (s.min + s.max) / 2 ≤ s.max) ∧
      (toInt ((s.min + s.max) / 2 + 1) = (s.min + s.max) / 2 + 1 ∧
        toInt ((s.min + s.max) / 2 - 1) = (s.min + s.max) / 2 - 1) ∧
      searchBody32 h cs v s = searchBodyExact h cs v s) ∧
    search32 h cs v = searchExact h cs v := by
  have hmax : toInt (toSize ((cs.length : Int) - 1)) = (cs.length : Int) - 1 := by
    unfold toInt toSize
    omega
  refine ⟨⟨by unfold IsInt; omega, hmax⟩, ?_, ?_⟩
  · intro s hs hc
    obtain ⟨h0, h1, _, _⟩ := loopState_bounds hs
    obtain ⟨e1, e2, e3, e4, e5⟩ := searchBody32_eq h cs v s hsize h0 h1 hc
    exact ⟨⟨h0, hc, h1⟩, ⟨by omega, by unfold IsInt; omega, e1⟩,
      ⟨e2, by omega, by omega, by omega, by omega⟩, ⟨e3, e4⟩, e5⟩
  · unfold search32 searchExact
    rw [hmax]
    exact searchLoop32_eq h cs v hsize cs.length _ (by simp) (by simp)

/-- Witness of C20: the search for vertex `4` among the children of the root
of the sample heap. -/
theorem search_exact_in_int32_witness :
    sampleRoot.children.length ≤ 1073741824 ∧
    search32 sampleHeap sampleRoot.children 4 = searchExact sampleHeap sampleRoot.children 4 ∧
    search32 sampleHeap sampleRoot.children 4 = .ok { min := 2, max := 1, found := -1 } :=
  ⟨by decide, (search_exact_in_int32 sampleHeap sampleRoot.children 4 (by decide)).2.2,
    by decide⟩

end STNodeModel
